import Mathlib

/- Shallow embedding of src/bpq.c (a BPQ-style chat client).

   Conventions: bytes are modelled as `Nat` (values of C `unsigned char`),
   byte buffers as `List Nat`, wide characters (`wchar_t`) as `Nat`
   codepoints, and instants of the monotonic clock as `Int` milliseconds
   (the C code always compares times through `since_ms`, i.e. through
   millisecond differences, so a single millisecond timeline suffices).
   Locale-dependent character classification (`wcwidth`, `iswpunct`) is
   passed in as explicit function parameters. -/

namespace Bpq

/-- Telnet command bytes, from the enum in src/bpq.c. -/
def IAC : Nat := 255

def DONT : Nat := 254

def DO_ : Nat := 253

def WONT : Nat := 252

def WILL : Nat := 251

def SB : Nat := 250

def SE : Nat := 240

/-- The Telnet parser state carried across reads (C struct `telnet_parser_t`):
    `state` is 0 = data, 1 = saw IAC, 2 = expecting an option byte,
    3 = inside a subnegotiation, 4 = subnegotiation saw IAC;
    `cmd` is the last command byte seen after an IAC. -/
structure telnet_parser_t where
  state : Nat
  cmd : Nat
  deriving DecidableEq

/-- C function `telnet_filter_and_reply`.  Consumes the inbound bytes one by
    one, threading the parser state.  `o` is the number of data bytes already
    written into the output buffer and `outcap` its capacity: the C code
    writes a data byte only under `o < outcap` (and otherwise drops it while
    still advancing the state machine).  Returns the final parser state, the
    emitted data bytes, and the reply bytes transmitted via `telnet_send3`. -/
def telnet_filter_and_reply (tp : telnet_parser_t) :
    List Nat → Nat → Nat → telnet_parser_t × List Nat × List Nat
  | [], _, _ => (tp, [], [])
  | ch :: rest, o, outcap =>
    match tp.state with
    | 0 =>
      if ch = IAC then telnet_filter_and_reply { tp with state := 1 } rest o outcap
      else if o < outcap then
        let r := telnet_filter_and_reply tp rest (o + 1) outcap
        (r.1, ch :: r.2.1, r.2.2)
      else telnet_filter_and_reply tp rest o outcap
    | 1 =>
      if ch = IAC then
        if o < outcap then
          let r := telnet_filter_and_reply { tp with state := 0, cmd := ch } rest (o + 1) outcap
          (r.1, IAC :: r.2.1, r.2.2)
        else telnet_filter_and_reply { tp with state := 0, cmd := ch } rest o outcap
      else if ch = DO_ ∨ ch = DONT ∨ ch = WILL ∨ ch = WONT then
        telnet_filter_and_reply { tp with state := 2, cmd := ch } rest o outcap
      else if ch = SB then
        telnet_filter_and_reply { tp with state := 3, cmd := ch } rest o outcap
      else
        telnet_filter_and_reply { tp with state := 0, cmd := ch } rest o outcap
    | 2 =>
      let rep : List Nat :=
        if tp.cmd = DO_ then [IAC, WONT, ch]
        else if tp.cmd = WILL then [IAC, DONT, ch]
        else []
      let r := telnet_filter_and_reply { tp with state := 0 } rest o outcap
      (r.1, r.2.1, rep ++ r.2.2)
    | 3 =>
      if ch = IAC then telnet_filter_and_reply { tp with state := 4 } rest o outcap
      else telnet_filter_and_reply tp rest o outcap
    | 4 =>
      if ch = SE then telnet_filter_and_reply { tp with state := 0 } rest o outcap
      else telnet_filter_and_reply { tp with state := 3 } rest o outcap
    | _ + 5 => telnet_filter_and_reply tp rest o outcap

/-- The same state machine with an unbounded output buffer.  In src/bpq.c the
    output buffer (64 KiB) is always larger than one socket read (at most
    4 KiB), so the capacity check never fires; `telnet_cap_eq_free` makes that
    bridge precise. -/
def telnet_filter_free (tp : telnet_parser_t) :
    List Nat → telnet_parser_t × List Nat × List Nat
  | [] => (tp, [], [])
  | ch :: rest =>
    match tp.state with
    | 0 =>
      if ch = IAC then telnet_filter_free { tp with state := 1 } rest
      else
        let r := telnet_filter_free tp rest
        (r.1, ch :: r.2.1, r.2.2)
    | 1 =>
      if ch = IAC then
        let r := telnet_filter_free { tp with state := 0, cmd := ch } rest
        (r.1, IAC :: r.2.1, r.2.2)
      else if ch = DO_ ∨ ch = DONT ∨ ch = WILL ∨ ch = WONT then
        telnet_filter_free { tp with state := 2, cmd := ch } rest
      else if ch = SB then
        telnet_filter_free { tp with state := 3, cmd := ch } rest
      else
        telnet_filter_free { tp with state := 0, cmd := ch } rest
    | 2 =>
      let rep : List Nat :=
        if tp.cmd = DO_ then [IAC, WONT, ch]
        else if tp.cmd = WILL then [IAC, DONT, ch]
        else []
      let r := telnet_filter_free { tp with state := 0 } rest
      (r.1, r.2.1, rep ++ r.2.2)
    | 3 =>
      if ch = IAC then telnet_filter_free { tp with state := 4 } rest
      else telnet_filter_free tp rest
    | 4 =>
      if ch = SE then telnet_filter_free { tp with state := 0 } rest
      else telnet_filter_free { tp with state := 3 } rest
    | _ + 5 => telnet_filter_free tp rest

/-- C function `normalize_incoming`: canonicalize line terminators in the
    filtered inbound bytes.  CR LF and a lone CR both become a single LF, LF
    passes through, every other byte is copied.  `o` is the number of bytes
    already emitted and `outcap` the output buffer capacity (bytes beyond it
    are dropped, exactly as the C loop drops them, while the CR LF lookahead
    still consumes its input). -/
def normalize_incoming : List Nat → Nat → Nat → List Nat
  | [], _, _ => []
  | [ch], o, outcap =>
    if ch = 13 then if o < outcap then [10] else []
    else if o < outcap then [ch] else []
  | ch :: ch2 :: rest, o, outcap =>
    if ch = 13 then
      if ch2 = 10 then
        if o < outcap then 10 :: normalize_incoming rest (o + 1) outcap
        else normalize_incoming rest o outcap
      else
        if o < outcap then 10 :: normalize_incoming (ch2 :: rest) (o + 1) outcap
        else normalize_incoming (ch2 :: rest) o outcap
    else
      if o < outcap then ch :: normalize_incoming (ch2 :: rest) (o + 1) outcap
      else normalize_incoming (ch2 :: rest) o outcap

/-- `normalize_incoming` with an unbounded output buffer.  In src/bpq.c the
    normalizer output buffer (64 KiB) is as large as its input buffer, and
    the normalizer never emits more bytes than it consumes, so the capacity
    check never fires; `normalize_cap_eq_free` makes that bridge precise. -/
def normalize_free : List Nat → List Nat
  | [] => []
  | [ch] => if ch = 13 then [10] else [ch]
  | ch :: ch2 :: rest =>
    if ch = 13 then
      if ch2 = 10 then 10 :: normalize_free rest
      else 10 :: normalize_free (ch2 :: rest)
    else ch :: normalize_free (ch2 :: rest)

/-- Helper for `split_lines`: a non-LF byte either extends the first
    extracted line, or, when no complete line follows, the remainder. -/
def cons_first (ch : Nat) : List (List Nat) × List Nat → List (List Nat) × List Nat
  | ([], r2) => ([], ch :: r2)
  | (l :: ls, r2) => ((ch :: l) :: ls, r2)

/-- The complete-line extraction loop of `main` (the memchr loop over the RX
    accumulator): emit every LF-terminated segment, terminator excluded, in
    order, and keep the unterminated remainder. -/
def split_lines : List Nat → List (List Nat) × List Nat
  | [] => ([], [])
  | ch :: rest =>
    if ch = 10 then ([] :: (split_lines rest).1, (split_lines rest).2)
    else cons_first ch (split_lines rest)

/-- One socket read worth of RX accumulation in `main`: the normalized
    chunk is appended to the persistent accumulator, all complete lines are
    extracted, and the remainder is kept for the next read. -/
def rx_feed (acc chunk : List Nat) : List (List Nat) × List Nat :=
  split_lines (acc ++ chunk)

/-- Run the RX accumulator over a sequence of normalized chunks, collecting
    all emitted lines in order together with the final remainder. -/
def rx_run : List Nat → List (List Nat) → List (List Nat) × List Nat
  | acc, [] => ([], acc)
  | acc, c :: cs =>
    let r := rx_feed acc c
    let rr := rx_run r.2 cs
    (r.1 ++ rr.1, rr.2)

/-- ASCII lowercasing, as C `tolower` behaves on the byte values compared by
    the autologin markers. -/
def to_lower (c : Nat) : Nat := if 65 ≤ c ∧ c ≤ 90 then c + 32 else c

/-- Case-insensitive prefix test: `strncasecmp(hay, needle, strlen needle) = 0`. -/
def icase_pre : List Nat → List Nat → Bool
  | [], _ => true
  | _ :: _, [] => false
  | n :: ns, h :: hs => if to_lower n = to_lower h then icase_pre ns hs else false

/-- C helper `istrstr`: case-insensitive substring scan over the haystack
    suffixes; an empty needle always matches. -/
def istrstr : List Nat → List Nat → Bool
  | _, [] => true
  | [], _ :: _ => false
  | h :: hs, n :: ns => if icase_pre (n :: ns) (h :: hs) then true else istrstr hs (n :: ns)

/-- Case-sensitive substring scan (C `strstr`), used by the quiet-period
    unlock markers. -/
def strstr_b : List Nat → List Nat → Bool
  | _, [] => true
  | [], _ :: _ => false
  | h :: hs, n :: ns => if List.isPrefixOf (n :: ns) (h :: hs) then true else strstr_b hs (n :: ns)

/-- C `send_eol`: CRLF, or CR alone with --cr-only. -/
def send_eol (cr_only : Bool) : List Nat := if cr_only then [13] else [13, 10]

/-- C `write_telnet_safe`: every 0xFF byte is doubled on transmit. -/
def write_telnet_safe (s : List Nat) : List Nat :=
  (s.map fun c => if c = IAC then [IAC, IAC] else [c]).flatten

/-- C `send_line_utf8_telnet_safe`: the escaped bytes followed by the EOL. -/
def send_line_utf8_telnet_safe (cr_only : Bool) (s : List Nat) : List Nat :=
  write_telnet_safe s ++ send_eol cr_only

/-- The login-prompt marker "login:". -/
def marker_login : List Nat := [108, 111, 103, 105, 110, 58]

/-- The login-prompt marker "user:". -/
def marker_user : List Nat := [117, 115, 101, 114, 58]

/-- The login-prompt marker "callsign:". -/
def marker_callsign : List Nat := [99, 97, 108, 108, 115, 105, 103, 110, 58]

/-- The password-prompt marker "password:". -/
def marker_password : List Nat := [112, 97, 115, 115, 119, 111, 114, 100, 58]

/-- The password-prompt marker "pass:". -/
def marker_pass : List Nat := [112, 97, 115, 115, 58]

/-- The password-prompt marker "pw:". -/
def marker_pw : List Nat := [112, 119, 58]

/-- The password-prompt marker "enter password". -/
def marker_enter_password : List Nat :=
  [101, 110, 116, 101, 114, 32, 112, 97, 115, 115, 119, 111, 114, 100]

/-- C struct `autologin_prompt_t`: `state` 0 = idle, 1 = awaiting the
    password prompt, 2 = done. -/
structure autologin_prompt_t where
  enabled : Bool
  state : Nat
  user : List Nat
  pass : List Nat
  deriving DecidableEq

/-- C `autologin_try_prompt`, returning the updated machine and the lines it
    transmitted. -/
def autologin_try_prompt (cr_only : Bool) (al : autologin_prompt_t) (recent : List Nat) :
    autologin_prompt_t × List (List Nat) :=
  if ¬al.enabled = true ∨ 2 ≤ al.state then (al, [])
  else if al.state = 0 then
    if istrstr recent marker_login || istrstr recent marker_user
        || istrstr recent marker_callsign then
      ({ al with state := 1 }, [send_line_utf8_telnet_safe cr_only al.user])
    else (al, [])
  else if al.state = 1 then
    if istrstr recent marker_password || istrstr recent marker_pass
        || istrstr recent marker_pw || istrstr recent marker_enter_password then
      ({ al with state := 2 }, [send_line_utf8_telnet_safe cr_only al.pass])
    else (al, [])
  else (al, [])

/-- C struct `autologin_blind_t`: `stage` 0 = idle, 1 = username sent,
    2 = password sent; times in monotonic milliseconds. -/
structure autologin_blind_t where
  enabled : Bool
  stage : Nat
  t0 : Int
  t_pass : Int
  du_ms : Int
  dp_ms : Int
  user : List Nat
  pass : List Nat
  deriving DecidableEq

/-- C `autologin_try_blind` evaluated at clock instant `now` (`since_ms`
    becomes an `Int` subtraction of millisecond instants). -/
def autologin_try_blind (cr_only : Bool) (ab : autologin_blind_t) (now : Int) :
    autologin_blind_t × List (List Nat) :=
  if ¬ab.enabled = true ∨ 2 ≤ ab.stage then (ab, [])
  else
    let ms := now - ab.t0
    if ab.stage = 0 ∧ ab.du_ms ≤ ms then
      ({ ab with stage := 1 }, [send_line_utf8_telnet_safe cr_only ab.user])
    else if ab.stage = 1 ∧ ab.dp_ms ≤ ms then
      ({ ab with stage := 2, t_pass := now }, [send_line_utf8_telnet_safe cr_only ab.pass])
    else (ab, [])

/-- Iterate `autologin_try_blind` over a list of wake instants, returning the
    final machine and the lines transmitted at each wake. -/
def blind_run (cr_only : Bool) :
    autologin_blind_t → List Int → autologin_blind_t × List (List (List Nat))
  | ab, [] => (ab, [])
  | ab, t :: ts =>
    let r := autologin_try_blind cr_only ab t
    let rr := blind_run cr_only r.1 ts
    (rr.1, r.2 :: rr.2)

/-- The `recent` trailing-window update in `main`: append the normalized
    chunk and keep only the last 8192 bytes; when the window ends up exactly
    full, the C code then overwrites its last byte with the NUL
    terminator. -/
def recent_update (r chunk : List Nat) : List Nat :=
  let t := (r ++ chunk).drop ((r ++ chunk).length - 8192)
  if t.length = 8192 then t.take 8191 ++ [0] else t

/-- The C string functions read `recent` only up to the first NUL byte. -/
def cstr (l : List Nat) : List Nat := l.takeWhile (· != 0)

/-- The inbound steps of successive loop iterations that feed the prompt
    autologin: each raw read is normalized (the Telnet filter is the
    identity on these byte values), the recent window is updated, and when
    the read produced bytes `autologin_try_prompt` runs — exactly the order
    of `main` under its nonempty-chunk guard.  Returns the final machine,
    the final recent window, and all transmitted lines. -/
def prompt_reads (cr_only : Bool) :
    autologin_prompt_t → List Nat → List (List Nat) →
      autologin_prompt_t × List Nat × List (List Nat)
  | al, recent, [] => (al, recent, [])
  | al, recent, chunk :: rest =>
    let m := normalize_incoming chunk 0 65536
    if m = [] then prompt_reads cr_only al recent rest
    else
      let recent' := recent_update recent m
      let r := if al.enabled = true ∧ al.state < 2
               then autologin_try_prompt cr_only al (cstr recent')
               else (al, [])
      let rr := prompt_reads cr_only r.1 recent' rest
      (rr.1, rr.2.1, r.2 ++ rr.2.2)

/-- Effective display width of a codepoint as the C code computes it: a
    negative `wcwidth` result is clamped to 1 ("non printable counted as
    1").  `w_of` is the locale-dependent `wcwidth`, passed in explicitly. -/
def effw (w_of : Nat → Int) (ch : Nat) : Nat :=
  if w_of ch < 0 then 1 else (w_of ch).toNat

/-- Break opportunity in the wrap scan: a space or a (locale-dependent)
    `iswpunct` codepoint, passed in explicitly as `pct`. -/
def is_break (pct : Nat → Bool) (ch : Nat) : Bool := ch == 32 || pct ch

/-- Display width of a codepoint sequence. -/
def dwidth (w_of : Nat → Int) (l : List Nat) : Nat := (l.map (effw w_of)).sum

/-- The inner scan of `wrap_and_push_wide`: starting at relative position
    `pos` with accumulated width `col` and last recorded break opportunity
    `lb` (its position and the width up to and including it), consume
    codepoints until the width would exceed `W` (overflow), exactly reaches
    `W`, or the line ends.  Returns the position after the last accepted
    codepoint, the final recorded break, and whether the stop was an
    overflow.  The break is recorded before the overflow test, exactly as in
    the C loop. -/
def wrap_scan (w_of : Nat → Int) (pct : Nat → Bool) (W : Nat) :
    List Nat → Nat → Nat → Option (Nat × Nat) → Nat × Option (Nat × Nat) × Bool
  | [], pos, _, lb => (pos, lb, false)
  | ch :: rest, pos, col, lb =>
    let w := effw w_of ch
    let lb' := if is_break pct ch then some (pos, col + w) else lb
    if W < col + w then (pos, lb', true)
    else if col + w = W then (pos + 1, lb', false)
    else wrap_scan w_of pct W rest (pos + 1) (col + w) lb'

/-- The cut position chosen by one outer iteration of `wrap_and_push_wide`
    (the final value of `end`): on overflow, cut one past the last break
    opportunity when one was recorded with positive width, otherwise keep
    the scanned extent, forcing at least one codepoint when nothing fits. -/
def seg_end (w_of : Nat → Int) (pct : Nat → Bool) (W : Nat) (line : List Nat) : Nat :=
  match wrap_scan w_of pct W line 0 0 none with
  | (taken, lb, ovf) =>
    if ovf then
      match lb with
      | some (p, calb) => if 0 < calb then p + 1 else if taken = 0 then 1 else taken
      | none => if taken = 0 then 1 else taken
    else taken

/-- The outer loop of `wrap_and_push_wide`, instrumented with the run of
    spaces the C code skips after each cut: each produced pair is one pushed
    visual line together with the elided spaces that followed it.  `fuel`
    bounds the recursion; `line.length` is always enough (see `wrap_pairs`)
    because every iteration consumes at least one codepoint. -/
def wrap_go (w_of : Nat → Int) (pct : Nat → Bool) (W : Nat) :
    Nat → List Nat → List (List Nat × List Nat)
  | 0, _ => []
  | _, [] => []
  | fuel + 1, ch :: rest =>
    let e := seg_end w_of pct W (ch :: rest)
    let seg := (ch :: rest).take e
    let after := (ch :: rest).drop e
    (seg, after.takeWhile (· == 32)) ::
      wrap_go w_of pct W fuel (after.dropWhile (· == 32))

/-- The width actually used by `wrap_and_push_wide`, which clamps its
    argument to at least one column at entry. -/
def eff_width (width : Int) : Nat := if width < 1 then 1 else width.toNat

/-- C `wrap_and_push_wide` as a function from one logical line to the pushed
    visual lines, each paired with the run of spaces elided after it. -/
def wrap_pairs (w_of : Nat → Int) (pct : Nat → Bool) (width : Int) (line : List Nat) :
    List (List Nat × List Nat) :=
  wrap_go w_of pct (eff_width width) line.length line

/-- The visual lines pushed by `wrap_and_push_wide` for one logical line. -/
def wrap_segs (w_of : Nat → Int) (pct : Nat → Bool) (width : Int) (line : List Nat) :
    List (List Nat) :=
  (wrap_pairs w_of pct width line).map Prod.fst

/-- Invariant of the recorded break opportunity relative to the scanned
    line: it points at a break codepoint, its width field is the display
    width up to and including that codepoint, and the width strictly before
    it is below the wrap width. -/
def lb_inv (w_of : Nat → Int) (pct : Nat → Bool) (W : Nat) (L : List Nat) :
    Option (Nat × Nat) → Prop
  | none => True
  | some (q, c) =>
      ∃ b, L[q]? = some b ∧ is_break pct b = true ∧
        c = dwidth w_of (L.take q) + effw w_of b ∧ dwidth w_of (L.take q) < W

/-- Capacity of the logical-line store ring (src/bpq.c STORE_MAX). -/
def STORE_MAX : Nat := 20000

/-- Capacity of the visual-line ring (src/bpq.c VIS_MAX). -/
def VIS_MAX : Nat := 200000

/-- The display-state globals of src/bpq.c touched by the ring and scroll
    operations: the logical-line store, the derived visual ring, and the
    index of the first visible visual line (C `view_top`, an `int`). -/
structure BufState where
  store : List (List Nat)
  visual : List (List Nat)
  view_top : Int
  deriving DecidableEq

/-- Number of visible output rows, `rows - 2` clamped to at least 1, as every
    use site in src/bpq.c computes it. -/
def eff_visible (rows : Int) : Int := max (rows - 2) 1

/-- C `push_visual_w`: append a visual line, evicting the oldest when the
    ring is full and pulling the scroll anchor down with the eviction. -/
def push_visual_w (s : BufState) (x : List Nat) : BufState :=
  if s.visual.length < VIS_MAX then { s with visual := s.visual ++ [x] }
  else
    { s with
      visual := s.visual.drop 1 ++ [x]
      view_top := if 0 < s.view_top then s.view_top - 1 else s.view_top }

/-- The effect of C `wrap_and_push_wide` on the display state: push every
    visual line produced for the logical line, in order. -/
def wrap_and_push_wide (w_of : Nat → Int) (pct : Nat → Bool) (s : BufState)
    (line : List Nat) (width : Int) : BufState :=
  (wrap_segs w_of pct width line).foldl push_visual_w s

/-- C `add_logical_line_w`: append to the store ring, evicting the oldest
    when full; wrap the line at `cols - 1` columns into the visual ring; and
    when following the bottom, re-anchor the scroll position to it. -/
def add_logical_line_w (w_of : Nat → Int) (pct : Nat → Bool) (rows cols : Int)
    (s : BufState) (line : List Nat) (follow : Bool) : BufState :=
  let s1 := if s.store.length < STORE_MAX then { s with store := s.store ++ [line] }
            else { s with store := s.store.drop 1 ++ [line] }
  let s2 := wrap_and_push_wide w_of pct s1 line (cols - 1)
  if follow then
    { s2 with view_top := max ((s2.visual.length : Int) - eff_visible rows) 0 }
  else s2

/-- C `reflow`: discard the visual ring, rewrap every stored logical line at
    the current width, then either re-anchor the scroll position to the
    bottom or clamp it into the new valid range. -/
def reflow (w_of : Nat → Int) (pct : Nat → Bool) (rows cols : Int) (s : BufState)
    (keep_bottom : Bool) : BufState :=
  let s1 : BufState := { s with visual := [] }
  let s2 := s.store.foldl (fun st l => wrap_and_push_wide w_of pct st l (cols - 1)) s1
  if keep_bottom then
    { s2 with view_top := max ((s2.visual.length : Int) - eff_visible rows) 0 }
  else
    { s2 with
      view_top := max (min s2.view_top (max ((s2.visual.length : Int) - eff_visible rows) 0)) 0 }

/-- The PgUp key handler: scroll up half a viewport, clamped at the top. -/
def page_up (rows : Int) (s : BufState) : BufState :=
  { s with view_top := max (s.view_top - eff_visible rows / 2) 0 }

/-- The PgDn key handler: scroll down half a viewport, clamped at the
    bottom of the valid range. -/
def page_down (rows : Int) (s : BufState) : BufState :=
  { s with
    view_top := min (s.view_top + eff_visible rows / 2)
      (max ((s.visual.length : Int) - eff_visible rows) 0) }

/-- The Home key handler. -/
def scroll_home (s : BufState) : BufState := { s with view_top := 0 }

/-- The End key handler. -/
def scroll_end (rows : Int) (s : BufState) : BufState :=
  { s with view_top := max ((s.visual.length : Int) - eff_visible rows) 0 }

/-- The Up-arrow key handler. -/
def line_up (s : BufState) : BufState :=
  { s with view_top := if 0 < s.view_top then s.view_top - 1 else s.view_top }

/-- The Down-arrow key handler. -/
def line_down (rows : Int) (s : BufState) : BufState :=
  { s with
    view_top :=
      if s.view_top < max ((s.visual.length : Int) - eff_visible rows) 0 then s.view_top + 1
      else s.view_top }

/-- The ring/scroll invariant of claim C8: both rings within capacity and
    the scroll position inside [0, max(0, vis_count − viewport_height)]. -/
def BufInv (rows : Int) (s : BufState) : Prop :=
  s.store.length ≤ STORE_MAX ∧ s.visual.length ≤ VIS_MAX ∧
  0 ≤ s.view_top ∧ s.view_top ≤ max ((s.visual.length : Int) - eff_visible rows) 0

/-- The configuration options of `main` that the lock logic reads. -/
structure Config where
  cr_only : Bool
  auto_help : Bool
  unlock_delay_ms : Int
  unlock_quiet_ms : Int
  deriving DecidableEq

/-- The marker test of the quiet-period unlock in `main`: the recent window
    contains "} ", "> ", "# ", ": ", or, case-insensitively,
    "connected to bbs". -/
def has_unlock_marker (recent : List Nat) : Bool :=
  strstr_b recent [125, 32] || strstr_b recent [62, 32] || strstr_b recent [35, 32]
    || strstr_b recent [58, 32]
    || istrstr recent [99, 111, 110, 110, 101, 99, 116, 101, 100, 32, 116, 111, 32, 98, 98, 115]

/-- The per-session state of `main` that the lock logic touches (display
    bookkeeping and the input-line editor touch none of these fields). -/
structure SessionState where
  tp : telnet_parser_t
  rx_acc : List Nat
  recent : List Nat
  last_rx : Int
  input_locked : Bool
  login_done_flag : Bool
  t_login_done : Int
  auto_help_sent : Bool
  alp : autologin_prompt_t
  alb : autologin_blind_t
  deriving DecidableEq

/-- `input_locked` at session start: asserted exactly when an autologin
    strategy is enabled. -/
def session_init_locked (alp_enabled alb_enabled : Bool) : Bool :=
  alp_enabled || alb_enabled

/-- The prompt-autologin step of one inbound iteration: under the guard of
    `main`, run `autologin_try_prompt` on the updated recent window and
    record the login-done flag and instant when the machine just reached
    its done state. -/
def prompt_update (cfg : Config) (now : Int) (recent1 : List Nat) (s3 : SessionState) :
    SessionState × List (List Nat) :=
  if s3.alp.enabled = true ∧ s3.alp.state < 2 then
    let r := autologin_try_prompt cfg.cr_only s3.alp (cstr recent1)
    ({ s3 with
       alp := r.1
       login_done_flag := if r.1.state = 2 then true else s3.login_done_flag
       t_login_done := if r.1.state = 2 then now else s3.t_login_done }, r.2)
  else (s3, [])

/-- The quiet-period unlock test of `main`, executed only in the inbound
    branch: when the lock is held and the recent window matches a marker,
    release it if at least the quiet period elapsed since `last_rx` — which
    the same branch has just reset to the current instant. -/
def quiet_unlock (cfg : Config) (now : Int) (recent1 : List Nat) (s4 : SessionState) :
    SessionState :=
  if s4.input_locked = true ∧ has_unlock_marker (cstr recent1) = true then
    if cfg.unlock_quiet_ms ≤ now - s4.last_rx then { s4 with input_locked := false }
    else s4
  else s4

/-- The inbound part of one loop iteration: Telnet filter, normalizer,
    accumulator, recent window, prompt autologin and quiet-period unlock,
    all under the nonempty-chunk guard of `main`, with `last_rx` updated
    before the quiet-period test. -/
def session_rx (cfg : Config) (s : SessionState) (now : Int) (bytes : List Nat) :
    SessionState × List (List Nat) :=
  let ft := telnet_filter_and_reply s.tp bytes 0 65536
  let s2 : SessionState := { s with tp := ft.1 }
  let m := normalize_incoming ft.2.1 0 65536
  if m = [] then (s2, if ft.2.2 = [] then [] else [ft.2.2])
  else
    let fed := rx_feed s2.rx_acc m
    let recent1 := recent_update s2.recent m
    let s3 : SessionState :=
      { s2 with rx_acc := fed.2, recent := recent1, last_rx := now }
    let rp := prompt_update cfg now recent1 s3
    (quiet_unlock cfg now recent1 rp.1,
     (if ft.2.2 = [] then [] else [ft.2.2]) ++ rp.2)

/-- The delay-based unlock of `main`: once the prompt machine finished or
    the blind machine sent the password, release the lock after the
    configured unlock delay. -/
def delay_unlock (cfg : Config) (now : Int) (s6 : SessionState) : SessionState :=
  if s6.input_locked = true ∧ (s6.login_done_flag = true ∨ s6.alb.stage = 2) then
    if cfg.unlock_delay_ms
        ≤ now - (if s6.login_done_flag = true then s6.t_login_done else s6.alb.t_pass) then
      { s6 with input_locked := false }
    else s6
  else s6

/-- The one-shot auto-help line of `main`, sent once the lock is released. -/
def auto_help_send (cfg : Config) (s7 : SessionState) : SessionState × List (List Nat) :=
  if s7.input_locked = false ∧ s7.auto_help_sent = false ∧ cfg.auto_help = true
  then ({ s7 with auto_help_sent := true }, [send_line_utf8_telnet_safe cfg.cr_only [63]])
  else (s7, [])

/-- One iteration of the main loop over the state above.  Inputs: the wake
    instant `now`, the raw socket bytes when the socket was readable, and a
    submitted command line when the keyboard produced one.  Output: the
    successor state and everything transmitted during the iteration.  The
    clock is sampled once per iteration: the C code takes its handful of
    clock_gettime samples of one iteration microseconds apart, below the
    millisecond granularity of every comparison.  The iteration order is
    that of `main`: blind autologin; inbound processing; delay-based
    unlock; one-shot auto-help; keyboard (a submitted line is transmitted
    only when unlocked, and the keyboard path never writes the lock). -/
def session_step (cfg : Config) (s : SessionState) (now : Int) (inbound : Option (List Nat))
    (key : Option (List Nat)) : SessionState × List (List Nat) :=
  let rb := if s.alb.enabled = true ∧ s.alb.stage < 2
            then autologin_try_blind cfg.cr_only s.alb now else (s.alb, [])
  let s1 : SessionState := { s with alb := rb.1 }
  let r2 := match inbound with
            | none => (s1, ([] : List (List Nat)))
            | some bytes => session_rx cfg s1 now bytes
  let s7 := delay_unlock cfg now r2.1
  let rh := auto_help_send cfg s7
  let rk :=
    match key with
    | none => (rh.1, ([] : List (List Nat)))
    | some line =>
      if rh.1.input_locked = false
      then (rh.1, [send_line_utf8_telnet_safe cfg.cr_only line])
      else (rh.1, [])
  (rk.1, rb.2 ++ r2.2 ++ rh.2 ++ rk.2)

/-- While the output buffer still has room for the whole chunk, the capped
    filter behaves exactly like the unbounded one. -/
theorem telnet_cap_eq_free (l : List Nat) :
    ∀ (tp : telnet_parser_t) (o outcap : Nat), o + l.length ≤ outcap →
    telnet_filter_and_reply tp l o outcap = telnet_filter_free tp l := by
  induction l with
  | nil => intro tp o outcap _; simp [telnet_filter_and_reply, telnet_filter_free]
  | cons ch rest ih =>
    intro tp o outcap h
    have hlt : o < outcap := by simp only [List.length_cons] at h; omega
    have hrec : o + 1 + rest.length ≤ outcap := by
      simp only [List.length_cons] at h; omega
    have hrec' : o + rest.length ≤ outcap := by omega
    obtain ⟨s, c⟩ := tp
    rcases s with _ | _ | _ | _ | _ | s
    all_goals simp only [telnet_filter_and_reply, telnet_filter_free]
    all_goals try split_ifs
    all_goals simp [ih _ _ _ hrec, ih _ _ _ hrec']

/-- Splitting the input of the unbounded filter in two, carrying the parser
    state across, concatenates the data outputs and the replies. -/
theorem telnet_free_append (a b : List Nat) : ∀ tp : telnet_parser_t,
    telnet_filter_free tp (a ++ b) =
      ((telnet_filter_free (telnet_filter_free tp a).1 b).1,
       (telnet_filter_free tp a).2.1 ++ (telnet_filter_free (telnet_filter_free tp a).1 b).2.1,
       (telnet_filter_free tp a).2.2 ++ (telnet_filter_free (telnet_filter_free tp a).1 b).2.2) := by
  induction a with
  | nil => intro tp; simp [telnet_filter_free]
  | cons ch rest ih =>
    intro tp
    obtain ⟨s, c⟩ := tp
    rcases s with _ | _ | _ | _ | _ | s
    all_goals simp only [List.cons_append, List.append_eq, telnet_filter_free]
    all_goals try split_ifs
    all_goals simp [ih, List.append_assoc]

/-- Claim C1: chunked-processing invariance of the Telnet filter.  For every
    inbound byte stream and every split of it into two consecutive chunks,
    filtering the two chunks in order while carrying the saved
    `telnet_parser_t` state between the calls yields exactly the same data
    output bytes, the same refusal replies, and the same final parser state
    as filtering the whole stream in one call.  The hypothesis reflects the
    buffer sizes in src/bpq.c: the output buffer (65536 bytes) always has
    room for a whole read (at most 4096 bytes), so the capacity check never
    truncates. -/
theorem telnet_chunk_invariance (tp : telnet_parser_t) (c1 c2 : List Nat) (outcap : Nat)
    (hcap : c1.length + c2.length ≤ outcap) :
    telnet_filter_and_reply tp (c1 ++ c2) 0 outcap =
      ((telnet_filter_and_reply (telnet_filter_and_reply tp c1 0 outcap).1 c2 0 outcap).1,
       (telnet_filter_and_reply tp c1 0 outcap).2.1 ++
         (telnet_filter_and_reply (telnet_filter_and_reply tp c1 0 outcap).1 c2 0 outcap).2.1,
       (telnet_filter_and_reply tp c1 0 outcap).2.2 ++
         (telnet_filter_and_reply (telnet_filter_and_reply tp c1 0 outcap).1 c2 0 outcap).2.2) := by
  have hw : 0 + (c1 ++ c2).length ≤ outcap := by
    simp only [List.length_append]; omega
  have h1 : 0 + c1.length ≤ outcap := by omega
  have h2 : 0 + c2.length ≤ outcap := by omega
  rw [telnet_cap_eq_free _ _ _ _ hw, telnet_cap_eq_free _ _ _ _ h1,
    telnet_cap_eq_free _ _ _ _ h2, telnet_free_append]

/-- Witness for C1 at a concrete split: the sequence IAC DO 42 split after the
    IAC byte. -/
theorem telnet_chunk_invariance_witness :
    telnet_filter_and_reply ⟨0, 0⟩ ([IAC] ++ [DO_, 42]) 0 65536 =
      ((telnet_filter_and_reply (telnet_filter_and_reply ⟨0, 0⟩ [IAC] 0 65536).1 [DO_, 42] 0 65536).1,
       (telnet_filter_and_reply ⟨0, 0⟩ [IAC] 0 65536).2.1 ++
         (telnet_filter_and_reply (telnet_filter_and_reply ⟨0, 0⟩ [IAC] 0 65536).1 [DO_, 42] 0 65536).2.1,
       (telnet_filter_and_reply ⟨0, 0⟩ [IAC] 0 65536).2.2 ++
         (telnet_filter_and_reply (telnet_filter_and_reply ⟨0, 0⟩ [IAC] 0 65536).1 [DO_, 42] 0 65536).2.2) :=
  telnet_chunk_invariance ⟨0, 0⟩ [IAC] [DO_, 42] 65536 (by norm_num)

/-- Claim C5: Telnet command semantics.  From the data state, IAC IAC emits
    exactly one literal 0xFF data byte and no reply; IAC DO opt triggers
    exactly the reply IAC WONT opt; IAC WILL opt triggers IAC DONT opt;
    IAC DONT opt and IAC WONT opt produce no reply; none of these sequences
    contributes data bytes except the doubled IAC.  The last conjunct is
    Scenario 1: inbound IAC DO 42 (with nothing following in a later read)
    yields the reply IAC WONT 42, zero data bytes, and a parser left in the
    data state. -/
theorem telnet_command_semantics (tp : telnet_parser_t) (opt outcap : Nat)
    (hst : tp.state = 0) (hcap : 0 < outcap) :
    telnet_filter_and_reply tp [IAC, IAC] 0 outcap = (⟨0, IAC⟩, [IAC], []) ∧
    telnet_filter_and_reply tp [IAC, DO_, opt] 0 outcap = (⟨0, DO_⟩, [], [IAC, WONT, opt]) ∧
    telnet_filter_and_reply tp [IAC, WILL, opt] 0 outcap = (⟨0, WILL⟩, [], [IAC, DONT, opt]) ∧
    telnet_filter_and_reply tp [IAC, DONT, opt] 0 outcap = (⟨0, DONT⟩, [], []) ∧
    telnet_filter_and_reply tp [IAC, WONT, opt] 0 outcap = (⟨0, WONT⟩, [], []) ∧
    telnet_filter_and_reply ⟨0, 0⟩ [IAC, DO_, 42] 0 65536 = (⟨0, DO_⟩, [], [IAC, WONT, 42]) := by
  obtain ⟨s, c⟩ := tp
  simp only [telnet_parser_t.mk.injEq] at hst
  subst hst
  refine ⟨?_, ?_, ?_, ?_, ?_, ?_⟩ <;>
    simp [telnet_filter_and_reply, IAC, DONT, DO_, WONT, WILL, SB, SE, hcap]

/-- While the output buffer still has room for the whole chunk, the capped
    normalizer behaves exactly like the unbounded one. -/
theorem normalize_cap_eq_free (l : List Nat) : ∀ (o outcap : Nat), o + l.length ≤ outcap →
    normalize_incoming l o outcap = normalize_free l := by
  induction l using normalize_free.induct with
  | case1 => intro o outcap _; simp [normalize_incoming, normalize_free]
  | case2 =>
    intro o outcap h
    have hlt : o < outcap := by simp only [List.length_singleton] at h; omega
    simp [normalize_incoming, normalize_free, hlt]
  | case3 ch hch =>
    intro o outcap h
    have hlt : o < outcap := by simp only [List.length_singleton] at h; omega
    simp [normalize_incoming, normalize_free, hch, hlt]
  | case4 rest ih =>
    intro o outcap h
    have hlt : o < outcap := by simp only [List.length_cons] at h; omega
    have hr : o + 1 + rest.length ≤ outcap := by simp only [List.length_cons] at h; omega
    simp [normalize_incoming, normalize_free, hlt, ih _ _ hr]
  | case5 ch2 rest hch2 ih =>
    intro o outcap h
    have hlt : o < outcap := by simp only [List.length_cons] at h; omega
    have hr : o + 1 + (ch2 :: rest).length ≤ outcap := by
      simp only [List.length_cons] at h ⊢; omega
    simp [normalize_incoming, normalize_free, hch2, hlt, ih _ _ hr]
  | case6 ch ch2 rest hch ih =>
    intro o outcap h
    have hlt : o < outcap := by simp only [List.length_cons] at h; omega
    have hr : o + 1 + (ch2 :: rest).length ≤ outcap := by
      simp only [List.length_cons] at h ⊢; omega
    simp [normalize_incoming, normalize_free, hch, hlt, ih _ _ hr]

/-- A leading LF passes through the normalizer unchanged. -/
theorem normalize_free_lf_cons (b : List Nat) :
    normalize_free (10 :: b) = 10 :: normalize_free b := by
  cases b <;> simp [normalize_free]

/-- CR LF collapses to a single LF. -/
theorem normalize_free_crlf (rest : List Nat) :
    normalize_free (13 :: 10 :: rest) = 10 :: normalize_free rest := by
  simp [normalize_free]

/-- A CR not followed by LF becomes a single LF. -/
theorem normalize_free_cr (ch2 : Nat) (rest : List Nat) (h : ch2 ≠ 10) :
    normalize_free (13 :: ch2 :: rest) = 10 :: normalize_free (ch2 :: rest) := by
  simp [normalize_free, h]

/-- A non-CR byte passes through in front of a nonempty tail. -/
theorem normalize_free_other (ch ch2 : Nat) (rest : List Nat) (h : ch ≠ 13) :
    normalize_free (ch :: ch2 :: rest) = ch :: normalize_free (ch2 :: rest) := by
  simp [normalize_free, h]

/-- Core of claim C9: a chunk ending in CR normalized on its own emits one LF
    for that CR, while the same CR followed by the next chunk's leading LF
    collapses to a single LF when normalized together, so the split run emits
    exactly one more LF than the whole run. -/
theorem normalize_free_split_count (b : List Nat) (c1 : List Nat) :
    c1 ≠ [] → c1.getLast? = some 13 →
    (normalize_free c1).count 10 + (normalize_free (10 :: b)).count 10
      = (normalize_free (c1 ++ 10 :: b)).count 10 + 1 := by
  induction c1 using normalize_free.induct with
  | case1 => intro h1 _; exact absurd rfl h1
  | case2 =>
    intro _ _
    simp only [List.cons_append, List.nil_append, normalize_free_crlf,
      normalize_free_lf_cons, List.count_cons]
    simp [normalize_free]
    omega
  | case3 ch hch =>
    intro _ hlast
    simp only [List.getLast?_singleton, Option.some.injEq] at hlast
    exact absurd hlast hch
  | case4 rest ih =>
    intro _ hlast
    rcases rest with _ | ⟨x, xs⟩
    · simp at hlast
    · rw [List.getLast?_cons_cons, List.getLast?_cons_cons] at hlast
      have hrec := ih (by simp) hlast
      simp only [List.cons_append] at hrec ⊢
      rw [normalize_free_crlf, normalize_free_crlf, normalize_free_lf_cons]
      rw [normalize_free_lf_cons] at hrec
      simp only [List.count_cons, if_pos rfl] at hrec ⊢
      omega
  | case5 ch2 rest hch2 ih =>
    intro _ hlast
    rw [List.getLast?_cons_cons] at hlast
    have hrec := ih (by simp) hlast
    simp only [List.cons_append] at hrec ⊢
    rw [normalize_free_cr _ _ hch2, normalize_free_cr _ _ hch2, normalize_free_lf_cons]
    rw [normalize_free_lf_cons] at hrec
    simp only [List.count_cons, if_pos rfl] at hrec ⊢
    omega
  | case6 ch ch2 rest hch ih =>
    intro _ hlast
    rw [List.getLast?_cons_cons] at hlast
    have hrec := ih (by simp) hlast
    simp only [List.cons_append] at hrec ⊢
    rw [normalize_free_other _ _ _ hch, normalize_free_other _ _ _ hch,
      normalize_free_lf_cons]
    rw [normalize_free_lf_cons] at hrec
    by_cases hch10 : ch = 10
    · subst hch10
      simp only [List.count_cons, if_pos rfl] at hrec ⊢
      omega
    · simp [List.count_cons, hch10] at hrec ⊢
      omega

/-- Claim C9 (implicit): the newline normalizer carries no state between
    calls, so it is not split-invariant.  Whenever the first chunk ends with
    CR (0x0D) and the second begins with LF (0x0A), normalizing the chunks in
    two separate calls emits one more LF in total than normalizing their
    concatenation in one call.  The two closed conjuncts show the
    consequence on the RX accumulator: the chunks "A\r" then "\nB\n" yield
    the three logical lines "A", "", "B", while the concatenation yields only
    "A", "B" — a CRLF split across two reads produces an extra empty line. -/
theorem normalize_not_chunk_invariant (c1 c2 : List Nat) (outcap : Nat)
    (h1 : c1 ≠ []) (hlast : c1.getLast? = some 13) (hhead : c2.head? = some 10)
    (hcap : c1.length + c2.length ≤ outcap) :
    ((normalize_incoming c1 0 outcap).count 10 + (normalize_incoming c2 0 outcap).count 10
      = (normalize_incoming (c1 ++ c2) 0 outcap).count 10 + 1) ∧
    (rx_run [] [normalize_incoming [65, 13] 0 65536, normalize_incoming [10, 66, 10] 0 65536]).1
      = [[65], [], [66]] ∧
    (rx_run [] [normalize_incoming ([65, 13] ++ [10, 66, 10]) 0 65536]).1 = [[65], [66]] := by
  refine ⟨?_, by decide, by decide⟩
  rcases c2 with _ | ⟨x, b⟩
  · simp at hhead
  · simp only [List.head?_cons, Option.some.injEq] at hhead
    subst hhead
    simp only [List.length_cons] at hcap
    rw [normalize_cap_eq_free c1 0 outcap (by omega),
      normalize_cap_eq_free (10 :: b) 0 outcap (by simp only [List.length_cons]; omega),
      normalize_cap_eq_free (c1 ++ 10 :: b) 0 outcap
        (by simp only [List.length_append, List.length_cons]; omega)]
    exact normalize_free_split_count b c1 h1 hlast

/-- Witness for C9 at the chunks "A\r" and "\nB\n" with the 64 KiB buffer. -/
theorem normalize_not_chunk_invariant_witness :
    ((normalize_incoming [65, 13] 0 65536).count 10
        + (normalize_incoming [10, 66, 10] 0 65536).count 10
      = (normalize_incoming ([65, 13] ++ [10, 66, 10]) 0 65536).count 10 + 1) ∧
    (rx_run [] [normalize_incoming [65, 13] 0 65536, normalize_incoming [10, 66, 10] 0 65536]).1
      = [[65], [], [66]] ∧
    (rx_run [] [normalize_incoming ([65, 13] ++ [10, 66, 10]) 0 65536]).1 = [[65], [66]] :=
  normalize_not_chunk_invariant [65, 13] [10, 66, 10] 65536 (by decide) (by decide)
    (by decide) (by norm_num)

/-- Every byte of the accumulator is reproduced: re-inserting the LF
    terminator after each extracted line and appending the remainder gives
    back the scanned buffer. -/
theorem split_lines_reconstruct (b : List Nat) :
    ((split_lines b).1.map (· ++ [10])).flatten ++ (split_lines b).2 = b := by
  induction b with
  | nil => simp [split_lines]
  | cons ch rest ih =>
    by_cases h : ch = 10
    · subst h
      simp only [split_lines, if_pos rfl, List.map_cons, List.flatten_cons,
        List.nil_append, List.cons_append]
      simpa using ih
    · rcases hr : split_lines rest with ⟨r1, r2⟩
      rw [hr] at ih
      cases r1 with
      | nil =>
        simp only [List.map_nil, List.flatten_nil, List.nil_append] at ih
        simp [split_lines, h, hr, cons_first, ih]
      | cons l ls =>
        simp only [List.map_cons, List.flatten_cons, List.append_assoc,
          List.singleton_append, List.cons_append, List.nil_append] at ih
        simp [split_lines, h, hr, cons_first, List.append_assoc, ih]

/-- No extracted line contains an embedded LF byte. -/
theorem split_lines_no_lf (b : List Nat) : ∀ l ∈ (split_lines b).1, 10 ∉ l := by
  induction b with
  | nil => simp [split_lines]
  | cons ch rest ih =>
    intro l hl
    by_cases h : ch = 10
    · subst h
      simp only [split_lines, if_pos rfl, List.mem_cons] at hl
      cases hl with
      | head => simp
      | tail _ h0 => exact ih l h0
    · obtain ⟨r1, r2, hr⟩ : ∃ r1 r2, split_lines rest = (r1, r2) := ⟨_, _, rfl⟩
      rw [hr] at ih
      cases r1 with
      | nil => simp [split_lines, h, hr, cons_first] at hl
      | cons l0 ls =>
        simp only [split_lines, h, if_neg, hr, cons_first, ite_false] at hl
        have hl' : l = ch :: l0 ∨ l ∈ ls := by
          simpa using hl
        rcases hl' with rfl | hl'
        · have h0 : 10 ∉ l0 := ih l0 (List.mem_cons_self _ _)
          simp only [List.mem_cons, not_or]
          exact ⟨fun hh => h hh.symm, h0⟩
        · exact ih l (List.mem_cons_of_mem _ hl')

/-- Reconstruction over a whole run of the accumulator. -/
theorem rx_run_reconstruct (chunks : List (List Nat)) : ∀ acc : List Nat,
    ((rx_run acc chunks).1.map (· ++ [10])).flatten ++ (rx_run acc chunks).2
      = acc ++ chunks.flatten := by
  induction chunks with
  | nil => intro acc; simp [rx_run]
  | cons c cs ih =>
    intro acc
    simp only [rx_run, rx_feed, List.flatten_cons, List.map_append, List.flatten_append]
    rw [List.append_assoc, ih (split_lines (acc ++ c)).2, ← List.append_assoc,
      split_lines_reconstruct (acc ++ c), List.append_assoc]

/-- No line emitted during a whole run of the accumulator contains an LF. -/
theorem rx_run_no_lf (chunks : List (List Nat)) : ∀ acc : List Nat,
    ∀ l ∈ (rx_run acc chunks).1, 10 ∉ l := by
  induction chunks with
  | nil => intro acc l hl; simp [rx_run] at hl
  | cons c cs ih =>
    intro acc l hl
    simp only [rx_run, rx_feed, List.mem_append] at hl
    rcases hl with h | h
    · exact split_lines_no_lf (acc ++ c) l h
    · exact ih _ l h

/-- Claim C2: RX accumulator line splitting.  For every sequence of
    normalized chunks fed from an empty accumulator, no emitted line contains
    an embedded LF, and concatenating all emitted lines with their LF
    terminators reinserted, followed by the final unterminated remainder,
    reconstructs exactly the concatenation of the input.  The closed
    conjuncts are Scenario 3: "AB\r\nCD" in one read then "EF\n" in a second
    read produce exactly the two logical lines "AB" and "CDEF". -/
theorem rx_accumulator_correct (chunks : List (List Nat)) :
    (∀ l ∈ (rx_run [] chunks).1, 10 ∉ l) ∧
    ((rx_run [] chunks).1.map (· ++ [10])).flatten ++ (rx_run [] chunks).2 = chunks.flatten ∧
    rx_feed [] (normalize_incoming [65, 66, 13, 10, 67, 68] 0 65536) = ([[65, 66]], [67, 68]) ∧
    rx_feed [67, 68] (normalize_incoming [69, 70, 10] 0 65536) = ([[67, 68, 69, 70]], []) :=
  ⟨rx_run_no_lf chunks [], by simpa using rx_run_reconstruct chunks [], by decide, by decide⟩

/-- Witness for C2 at the chunk sequence of Scenario 3 (after
    normalization). -/
theorem rx_accumulator_correct_witness :
    (∀ l ∈ (rx_run [] [[65, 66, 10, 67, 68], [69, 70, 10]]).1, 10 ∉ l) ∧
    ((rx_run [] [[65, 66, 10, 67, 68], [69, 70, 10]]).1.map (· ++ [10])).flatten
        ++ (rx_run [] [[65, 66, 10, 67, 68], [69, 70, 10]]).2
      = [[65, 66, 10, 67, 68], [69, 70, 10]].flatten ∧
    rx_feed [] (normalize_incoming [65, 66, 13, 10, 67, 68] 0 65536) = ([[65, 66]], [67, 68]) ∧
    rx_feed [67, 68] (normalize_incoming [69, 70, 10] 0 65536) = ([[67, 68, 69, 70]], []) :=
  rx_accumulator_correct [[65, 66, 10, 67, 68], [69, 70, 10]]

/-- A wake with stage ≥ 2 never transmits and never changes the machine. -/
theorem blind_run_done (cr_only : Bool) (ts : List Int) : ∀ ab : autologin_blind_t,
    2 ≤ ab.stage → blind_run cr_only ab ts = (ab, ts.map fun _ => []) := by
  induction ts with
  | nil => intro ab _; simp [blind_run]
  | cons t ts ih =>
    intro ab h
    have hstep : autologin_try_blind cr_only ab t = (ab, []) := by
      simp [autologin_try_blind, h]
    simp [blind_run, hstep, ih ab h]

/-- A wake at or after the username delay in stage 0 transmits exactly the
    username and moves to stage 1. -/
theorem blind_step_user (cr_only : Bool) (t0 tp du dp : Int) (u p : List Nat) (now : Int)
    (h : du ≤ now - t0) :
    autologin_try_blind cr_only ⟨true, 0, t0, tp, du, dp, u, p⟩ now
      = (⟨true, 1, t0, tp, du, dp, u, p⟩, [send_line_utf8_telnet_safe cr_only u]) := by
  simp [autologin_try_blind, h]

/-- From stage 1, wakes before the password delay do nothing, and the first
    wake at or after it transmits exactly the password, records that instant
    as the password-sent time, and moves to stage 2. -/
theorem blind_run_stage1 (cr_only : Bool) (t0 tp du dp : Int) (u p : List Nat)
    (post : List Int) (tk : Int) (hk : dp ≤ tk - t0) : ∀ mid : List Int,
    (∀ t ∈ mid, t - t0 < dp) →
    blind_run cr_only ⟨true, 1, t0, tp, du, dp, u, p⟩ (mid ++ tk :: post)
      = (⟨true, 2, t0, tk, du, dp, u, p⟩,
         mid.map (fun _ => [])
           ++ [send_line_utf8_telnet_safe cr_only p] :: post.map fun _ => []) := by
  intro mid
  induction mid with
  | nil =>
    intro _
    have hstep : autologin_try_blind cr_only ⟨true, 1, t0, tp, du, dp, u, p⟩ tk
        = (⟨true, 2, t0, tk, du, dp, u, p⟩, [send_line_utf8_telnet_safe cr_only p]) := by
      simp [autologin_try_blind, hk]
    simp [blind_run, hstep,
      blind_run_done cr_only post ⟨true, 2, t0, tk, du, dp, u, p⟩ (by simp)]
  | cons t ms ih =>
    intro hmid
    have h1 : ¬dp ≤ t - t0 := by have := hmid t (by simp); omega
    have hstep : autologin_try_blind cr_only ⟨true, 1, t0, tp, du, dp, u, p⟩ t
        = (⟨true, 1, t0, tp, du, dp, u, p⟩, []) := by
      simp [autologin_try_blind, h1]
    simp only [List.cons_append, blind_run, hstep, List.map_cons, List.append_eq]
    rw [ih fun t ht => hmid t (List.mem_cons_of_mem _ ht)]

/-- Claim C6: the blind-timed autologin schedule with the 150 ms / 1000 ms
    delays of src/bpq.c.  Over any sequence of wakes: nothing is transmitted
    at wakes earlier than 150 ms past the start time; the first wake at or
    after start+150 ms transmits the username exactly once; the first
    subsequent wake at or after start+1000 ms (measured from the start, not
    from the username send) transmits the password exactly once and records
    that instant as the password-sent time; and later wakes transmit nothing
    further. -/
theorem blind_autologin_schedule (cr_only : Bool) (t0 : Int) (u p : List Nat)
    (mid post : List Int) (tj tk : Int)
    (hj : 150 ≤ tj - t0) (hmid : ∀ t ∈ mid, t - t0 < 1000) (hk : 1000 ≤ tk - t0) :
    ∀ pre : List Int, (∀ t ∈ pre, t - t0 < 150) →
    blind_run cr_only ⟨true, 0, t0, 0, 150, 1000, u, p⟩ (pre ++ tj :: mid ++ tk :: post)
      = (⟨true, 2, t0, tk, 150, 1000, u, p⟩,
         pre.map (fun _ => [])
           ++ [send_line_utf8_telnet_safe cr_only u]
           :: mid.map (fun _ => [])
           ++ [send_line_utf8_telnet_safe cr_only p]
           :: post.map fun _ => []) := by
  intro pre
  induction pre with
  | nil =>
    intro _
    have hstep := blind_step_user cr_only t0 0 150 1000 u p tj hj
    simp only [List.nil_append, List.map_nil, blind_run, hstep, List.append_eq]
    rw [blind_run_stage1 cr_only t0 0 150 1000 u p post tk hk mid hmid]
    rfl
  | cons t pr ih =>
    intro hpre
    have h1 : ¬(150 : Int) ≤ t - t0 := by have := hpre t (by simp); omega
    have hstep : autologin_try_blind cr_only ⟨true, 0, t0, 0, 150, 1000, u, p⟩ t
        = (⟨true, 0, t0, 0, 150, 1000, u, p⟩, []) := by
      simp [autologin_try_blind, h1]
    simp only [List.cons_append, blind_run, hstep, List.map_cons, List.append_eq]
    rw [ih fun t ht => hpre t (List.mem_cons_of_mem _ ht)]

/-- Witness for C6: Scenario 5 with username "U", password "P", wakes at
    0, 100, 150, 600, 1000, 1500 ms; "U" goes out exactly at t = 150 ms and
    "P" exactly at t = 1000 ms. -/
theorem blind_autologin_schedule_witness :
    blind_run false ⟨true, 0, 0, 0, 150, 1000, [85], [80]⟩
        ([0, 100] ++ 150 :: [600] ++ 1000 :: [1500])
      = (⟨true, 2, 0, 1000, 150, 1000, [85], [80]⟩,
         [[], [], [[85, 13, 10]], [], [[80, 13, 10]], []]) := by
  have h := blind_autologin_schedule false 0 [85] [80] [600] [1500] 150 1000
    (by decide) (by decide) (by decide) [0, 100] (by decide)
  simpa [send_line_utf8_telnet_safe, write_telnet_safe, send_eol, IAC] using h

/-- Claim C7: prompt-triggered autologin.  In the idle state a
    case-insensitive occurrence of "login:", "user:" or "callsign:" in the
    recent window transmits the configured username as one line and advances
    to the awaiting-password state; there, a case-insensitive occurrence of
    "password:", "pass:", "pw:" or "enter password" transmits the password
    and advances to done; once done (state ≥ 2) nothing is ever transmitted
    again.  The last conjunct is Scenario 2: reads "login:", " ", "\r\n"
    with username "N0CALL" produce exactly the single line "N0CALL\r\n" and
    leave the machine awaiting the password prompt. -/
theorem prompt_autologin_semantics (cr_only : Bool) :
    (∀ (al : autologin_prompt_t) (recent : List Nat), al.enabled = true → al.state = 0 →
      (istrstr recent marker_login || istrstr recent marker_user
        || istrstr recent marker_callsign) = true →
      autologin_try_prompt cr_only al recent
        = ({ al with state := 1 }, [send_line_utf8_telnet_safe cr_only al.user])) ∧
    (∀ (al : autologin_prompt_t) (recent : List Nat), al.enabled = true → al.state = 1 →
      (istrstr recent marker_password || istrstr recent marker_pass
        || istrstr recent marker_pw || istrstr recent marker_enter_password) = true →
      autologin_try_prompt cr_only al recent
        = ({ al with state := 2 }, [send_line_utf8_telnet_safe cr_only al.pass])) ∧
    (∀ (al : autologin_prompt_t) (recent : List Nat), 2 ≤ al.state →
      autologin_try_prompt cr_only al recent = (al, [])) ∧
    prompt_reads false ⟨true, 0, [78, 48, 67, 65, 76, 76], [80]⟩ []
        [[108, 111, 103, 105, 110, 58], [32], [13, 10]]
      = (⟨true, 1, [78, 48, 67, 65, 76, 76], [80]⟩,
         [108, 111, 103, 105, 110, 58, 32, 10],
         [[78, 48, 67, 65, 76, 76, 13, 10]]) := by
  refine ⟨?_, ?_, ?_, by decide⟩
  · intro al recent hen hst hmatch
    simp [autologin_try_prompt, hen, hst, hmatch]
  · intro al recent hen hst hmatch
    simp [autologin_try_prompt, hen, hst, hmatch]
  · intro al recent h
    simp [autologin_try_prompt, h]

/-- Witness for C7: the idle machine with username "N0CALL" fires on the
    recent window "login:". -/
theorem prompt_autologin_semantics_witness :
    autologin_try_prompt false ⟨true, 0, [78, 48, 67, 65, 76, 76], [80]⟩
        [108, 111, 103, 105, 110, 58]
      = (⟨true, 1, [78, 48, 67, 65, 76, 76], [80]⟩,
         [[78, 48, 67, 65, 76, 76, 13, 10]]) := by
  have h := (prompt_autologin_semantics false).1
    ⟨true, 0, [78, 48, 67, 65, 76, 76], [80]⟩ [108, 111, 103, 105, 110, 58]
    rfl rfl (by decide)
  simpa [send_line_utf8_telnet_safe, write_telnet_safe, send_eol, IAC] using h

/-- Invariant of the wrap scan: positions only advance within the line, the
    accepted prefix never exceeds the wrap width, and the recorded break
    opportunity keeps its invariant. -/
theorem wrap_scan_spec (w_of : Nat → Int) (pct : Nat → Bool) (W : Nat) (L : List Nat) :
    ∀ (s : List Nat) (k : Nat) (lb : Option (Nat × Nat)),
      L.drop k = s →
      dwidth w_of (L.take k) < W →
      lb_inv w_of pct W L lb →
      k ≤ L.length →
      k ≤ (wrap_scan w_of pct W s k (dwidth w_of (L.take k)) lb).1 ∧
      (wrap_scan w_of pct W s k (dwidth w_of (L.take k)) lb).1 ≤ L.length ∧
      dwidth w_of (L.take (wrap_scan w_of pct W s k (dwidth w_of (L.take k)) lb).1) ≤ W ∧
      lb_inv w_of pct W L (wrap_scan w_of pct W s k (dwidth w_of (L.take k)) lb).2.1 := by
  intro s
  induction s with
  | nil =>
    intro k lb _ hcol hlb hk
    simp only [wrap_scan]
    exact ⟨Nat.le_refl k, hk, Nat.le_of_lt hcol, hlb⟩
  | cons ch rest ih =>
    intro k lb hdrop hcol hlb hk
    have hch : L[k]? = some ch := by
      have h0 := List.getElem?_drop L k 0
      rw [hdrop] at h0
      simpa using h0.symm
    have hklen : k < L.length := by
      rcases List.getElem?_eq_some_iff.mp hch with ⟨h, _⟩
      exact h
    have hdrop' : L.drop (k + 1) = rest := by
      have h1 : (L.drop k).tail = rest := by rw [hdrop]; rfl
      rwa [List.tail_drop] at h1
    have hdw : dwidth w_of (L.take (k + 1)) = dwidth w_of (L.take k) + effw w_of ch := by
      rw [List.take_succ]
      simp [hch, dwidth]
    have hlbinv' :
        lb_inv w_of pct W L
          (if is_break pct ch then some (k, dwidth w_of (L.take k) + effw w_of ch) else lb) := by
      by_cases hbr : is_break pct ch = true
      · simp only [hbr, if_pos]
        exact ⟨ch, hch, hbr, rfl, hcol⟩
      · simp only [hbr, if_neg, Bool.not_eq_true]
        simpa [hbr] using hlb
    simp only [wrap_scan]
    by_cases hover : W < dwidth w_of (L.take k) + effw w_of ch
    · rw [if_pos hover]
      exact ⟨Nat.le_refl k, Nat.le_of_lt hklen, Nat.le_of_lt hcol, hlbinv'⟩
    · by_cases hexact : dwidth w_of (L.take k) + effw w_of ch = W
      · rw [if_neg hover, if_pos hexact]
        refine ⟨Nat.le_succ k, hklen, ?_, hlbinv'⟩
        rw [hdw, hexact]
      · have hlt : dwidth w_of (L.take k) + effw w_of ch < W := by omega
        rw [if_neg hover, if_neg hexact]
        have hrec := ih (k + 1)
          (if is_break pct ch then some (k, dwidth w_of (L.take k) + effw w_of ch) else lb)
          hdrop' (by rw [hdw]; exact hlt) hlbinv' hklen
        rw [hdw] at hrec
        exact ⟨Nat.le_trans (Nat.le_succ k) hrec.1, hrec.2.1, hrec.2.2.1, hrec.2.2.2⟩

/-- The scan never moves the position backwards. -/
theorem wrap_scan_ge (w_of : Nat → Int) (pct : Nat → Bool) (W : Nat) :
    ∀ (s : List Nat) (pos col : Nat) (lb : Option (Nat × Nat)),
      pos ≤ (wrap_scan w_of pct W s pos col lb).1 := by
  intro s
  induction s with
  | nil => intro pos col lb; simp [wrap_scan]
  | cons ch rest ih =>
    intro pos col lb
    simp only [wrap_scan]
    split_ifs <;>
      first
        | exact Nat.le_refl _
        | exact Nat.le_succ _
        | exact Nat.le_trans (Nat.le_succ pos) (ih (pos + 1) _ _)

/-- A scan of a nonempty line that does not stop on overflow accepts at
    least one codepoint. -/
theorem wrap_scan_progress (w_of : Nat → Int) (pct : Nat → Bool) (W : Nat) :
    ∀ (s : List Nat) (pos col : Nat) (lb : Option (Nat × Nat)), s ≠ [] →
      (wrap_scan w_of pct W s pos col lb).2.2 = false →
      pos + 1 ≤ (wrap_scan w_of pct W s pos col lb).1 := by
  intro s
  cases s with
  | nil => intro pos col lb h; exact absurd rfl h
  | cons ch rest =>
    intro pos col lb _ hovf
    simp only [wrap_scan] at hovf ⊢
    split_ifs at hovf ⊢ <;>
      first
        | exact Nat.le_refl _
        | exact wrap_scan_ge w_of pct W rest (pos + 1) _ _

/-- Every outer iteration of the wrap loop consumes at least one codepoint. -/
theorem seg_end_pos (w_of : Nat → Int) (pct : Nat → Bool) (W : Nat) (line : List Nat)
    (h : line ≠ []) : 1 ≤ seg_end w_of pct W line := by
  have hprog := wrap_scan_progress w_of pct W line 0 0 none h
  unfold seg_end
  rcases hscan : wrap_scan w_of pct W line 0 0 none with ⟨taken, lb, ovf⟩
  cases ovf
  · have h1 := hprog (by rw [hscan])
    rw [hscan] at h1
    simpa using h1
  · rcases lb with _ | ⟨p, calb⟩ <;> simp <;> split_ifs <;> omega

/-- Width bound for one cut: under the amended hypotheses (every codepoint
    fits in the width and break codepoints are at most one cell wide), the
    segment chosen by `seg_end` has display width at most `W`. -/
theorem seg_end_width (w_of : Nat → Int) (pct : Nat → Bool) (W : Nat) (L : List Nat)
    (hW1 : 1 ≤ W) (hW : ∀ c ∈ L, effw w_of c ≤ W)
    (hB : ∀ c ∈ L, is_break pct c = true → effw w_of c ≤ 1) :
    dwidth w_of (L.take (seg_end w_of pct W L)) ≤ W := by
  have hspec := wrap_scan_spec w_of pct W L L 0 none (by simp) (by simpa [dwidth] using hW1)
    trivial (Nat.zero_le _)
  have h0 : dwidth w_of (L.take 0) = 0 := rfl
  rw [h0] at hspec
  rcases hscan : wrap_scan w_of pct W L 0 0 none with ⟨taken, lb, ovf⟩
  rw [hscan] at hspec
  have htaken : dwidth w_of (L.take taken) ≤ W := hspec.2.2.1
  have hlbi : lb_inv w_of pct W L lb := hspec.2.2.2
  have hhead : L ≠ [] → dwidth w_of (L.take 1) ≤ W := by
    intro hne
    cases L with
    | nil => exact absurd rfl hne
    | cons c0 Lt => simpa [dwidth] using hW c0 (List.mem_cons_self _ _)
  cases ovf
  · have he : seg_end w_of pct W L = taken := by
      unfold seg_end
      rw [hscan]
      simp
    rw [he]
    exact htaken
  · have hne : L ≠ [] := by
      intro he
      subst he
      simp [wrap_scan] at hscan
    rcases lb with _ | ⟨p, calb⟩
    · by_cases ht0 : taken = 0
      · have he : seg_end w_of pct W L = 1 := by
          unfold seg_end
          rw [hscan]
          simp [ht0]
        rw [he]
        exact hhead hne
      · have he : seg_end w_of pct W L = taken := by
          unfold seg_end
          rw [hscan]
          simp [ht0]
        rw [he]
        exact htaken
    · simp only [lb_inv] at hlbi
      obtain ⟨b, hb, hbr, hc, hlt⟩ := hlbi
      by_cases hcalb : 0 < calb
      · have he : seg_end w_of pct W L = p + 1 := by
          unfold seg_end
          rw [hscan]
          simp [hcalb]
        rw [he]
        obtain ⟨hplen, hpb⟩ := List.getElem?_eq_some_iff.mp hb
        have hmem : b ∈ L := by
          rw [← hpb]
          exact List.getElem_mem hplen
        have hbw : effw w_of b ≤ 1 := hB b hmem hbr
        have htk : L.take (p + 1) = L.take p ++ [b] := by
          rw [List.take_succ]
          simp [hb]
        rw [htk]
        have hlt2 : dwidth w_of (L.take p) < W := hlt
        simp only [dwidth, List.map_append, List.sum_append, List.map_cons, List.map_nil,
          List.sum_cons, List.sum_nil] at hlt2 ⊢
        omega
      · by_cases ht0 : taken = 0
        · have he : seg_end w_of pct W L = 1 := by
            unfold seg_end
            rw [hscan]
            simp [hcalb, ht0]
          rw [he]
          exact hhead hne
        · have he : seg_end w_of pct W L = taken := by
            unfold seg_end
            rw [hscan]
            simp [hcalb, ht0]
          rw [he]
          exact htaken

/-- With enough fuel (one unit per codepoint), concatenating each produced
    visual line with its elided spaces reconstructs the logical line. -/
theorem wrap_go_reconstruct (w_of : Nat → Int) (pct : Nat → Bool) (W : Nat) :
    ∀ (fuel : Nat) (line : List Nat), line.length ≤ fuel →
      ((wrap_go w_of pct W fuel line).map fun pr => pr.1 ++ pr.2).flatten = line := by
  intro fuel
  induction fuel with
  | zero =>
    intro line h
    have h0 : line = [] := List.length_eq_zero.mp (Nat.le_zero.mp h)
    subst h0
    simp [wrap_go]
  | succ fuel ih =>
    intro line h
    cases line with
    | nil => simp [wrap_go]
    | cons ch rest =>
      have h1 : 1 ≤ seg_end w_of pct W (ch :: rest) := seg_end_pos w_of pct W _ (by simp)
      have hlen :
          (((ch :: rest).drop (seg_end w_of pct W (ch :: rest))).dropWhile (· == 32)).length
            ≤ fuel := by
        have h2 : (((ch :: rest).drop (seg_end w_of pct W (ch :: rest))).dropWhile
              (· == 32)).length
            ≤ ((ch :: rest).drop (seg_end w_of pct W (ch :: rest))).length :=
          (List.dropWhile_sublist _).length_le
        have h3 : ((ch :: rest).drop (seg_end w_of pct W (ch :: rest))).length
            = (ch :: rest).length - seg_end w_of pct W (ch :: rest) := List.length_drop _ _
        simp only [List.length_cons] at h h3
        omega
      simp only [wrap_go, List.map_cons, List.flatten_cons]
      rw [ih _ hlen, List.append_assoc, List.takeWhile_append_dropWhile,
        List.take_append_drop]

/-- Every elided gap consists of spaces only. -/
theorem wrap_go_gaps (w_of : Nat → Int) (pct : Nat → Bool) (W : Nat) :
    ∀ (fuel : Nat) (line : List Nat), ∀ pr ∈ wrap_go w_of pct W fuel line,
      ∀ c ∈ pr.2, c = 32 := by
  intro fuel
  induction fuel with
  | zero => intro line pr hpr; simp [wrap_go] at hpr
  | succ fuel ih =>
    intro line pr hpr
    cases line with
    | nil => simp [wrap_go] at hpr
    | cons ch rest =>
      simp only [wrap_go, List.mem_cons] at hpr
      rcases hpr with rfl | hpr
      · intro c hc
        have hcc := List.mem_takeWhile_imp hc
        simpa using hcc
      · exact ih _ pr hpr

/-- Every produced visual line is nonempty. -/
theorem wrap_go_nonempty (w_of : Nat → Int) (pct : Nat → Bool) (W : Nat) :
    ∀ (fuel : Nat) (line : List Nat), ∀ pr ∈ wrap_go w_of pct W fuel line, pr.1 ≠ [] := by
  intro fuel
  induction fuel with
  | zero => intro line pr hpr; simp [wrap_go] at hpr
  | succ fuel ih =>
    intro line pr hpr
    cases line with
    | nil => simp [wrap_go] at hpr
    | cons ch rest =>
      simp only [wrap_go, List.mem_cons] at hpr
      rcases hpr with rfl | hpr
      · have h1 : 1 ≤ seg_end w_of pct W (ch :: rest) := seg_end_pos w_of pct W _ (by simp)
        cases he : seg_end w_of pct W (ch :: rest) with
        | zero => omega
        | succ e => simp [he, List.take_succ_cons]
      · exact ih _ pr hpr

/-- Width bound over the whole wrap loop, under the amended hypotheses. -/
theorem wrap_go_width (w_of : Nat → Int) (pct : Nat → Bool) (W : Nat) (hW1 : 1 ≤ W) :
    ∀ (fuel : Nat) (line : List Nat),
      (∀ c ∈ line, effw w_of c ≤ W) →
      (∀ c ∈ line, is_break pct c = true → effw w_of c ≤ 1) →
      ∀ pr ∈ wrap_go w_of pct W fuel line, dwidth w_of pr.1 ≤ W := by
  intro fuel
  induction fuel with
  | zero => intro line _ _ pr hpr; simp [wrap_go] at hpr
  | succ fuel ih =>
    intro line hW hB pr hpr
    cases line with
    | nil => simp [wrap_go] at hpr
    | cons ch rest =>
      simp only [wrap_go, List.mem_cons] at hpr
      rcases hpr with rfl | hpr
      · exact seg_end_width w_of pct W (ch :: rest) hW1 hW hB
      · have hsub : (((ch :: rest).drop (seg_end w_of pct W (ch :: rest))).dropWhile (· == 32))
            ⊆ ch :: rest := fun c hc =>
          List.drop_subset _ _ ((List.dropWhile_sublist _).subset hc)
        exact ih _ (fun c hc => hW c (hsub hc)) (fun c hc hbr => hB c (hsub hc) hbr) pr hpr

/-- Claim C3 as stated is refuted by the code: a visual line produced by
    `wrap_and_push_wide` can exceed the width `W`.  First instance: width 4
    and the line "abc" followed by U+3001 (ideographic comma: cell width 2
    and punctuation, hence a break opportunity): the cut at the break keeps
    the overflowing codepoint, producing one visual line of width 5.  Second
    instance: width 1 and a single double-width codepoint (U+4E00): forced
    progress produces a visual line of width 2. -/
theorem wrap_width_counterexample :
    (wrap_segs (fun c => if c = 12289 then 2 else 1) (fun c => c == 12289) 4
        [97, 98, 99, 12289] = [[97, 98, 99, 12289]] ∧
      dwidth (fun c => if c = 12289 then 2 else 1) [97, 98, 99, 12289] = 5 ∧ ¬(5 ≤ 4)) ∧
    (wrap_segs (fun _ => 2) (fun _ => false) 1 [19968] = [[19968]] ∧
      dwidth (fun _ => 2) [19968] = 2 ∧ ¬((2 : Nat) ≤ 1)) := by
  refine ⟨⟨?_, by decide, by decide⟩, ⟨?_, by decide, by decide⟩⟩ <;> rfl

/-- Claim C3 (amended as the counterexample forces): for every logical line
    and width, unconditionally, concatenating the produced visual lines with
    the elided space runs reproduces the original content, every elided
    codepoint is a space, and no produced visual line is empty; and —
    provided every codepoint fits in the effective width and every
    break-opportunity codepoint (space or punctuation) is at most one cell
    wide — every produced visual line has display width at most the
    effective width.  The proviso scopes to the width bound alone: without
    it a forced cut (single codepoint wider than W) or a cut at an
    overflowing wide break codepoint may exceed W, as
    `wrap_width_counterexample` shows, while reconstruction, space-only
    elision and non-emptiness still hold. -/
theorem wrap_bounds_amended (w_of : Nat → Int) (pct : Nat → Bool) (width : Int)
    (line : List Nat) :
    ((∀ c ∈ line, effw w_of c ≤ eff_width width) →
     (∀ c ∈ line, is_break pct c = true → effw w_of c ≤ 1) →
     ∀ seg ∈ wrap_segs w_of pct width line, dwidth w_of seg ≤ eff_width width) ∧
    (∀ seg ∈ wrap_segs w_of pct width line, seg ≠ []) ∧
    ((wrap_pairs w_of pct width line).map fun pr => pr.1 ++ pr.2).flatten = line ∧
    (∀ pr ∈ wrap_pairs w_of pct width line, ∀ c ∈ pr.2, c = 32) := by
  have hW1 : 1 ≤ eff_width width := by
    unfold eff_width
    split_ifs with h <;> omega
  refine ⟨?_, ?_, ?_, ?_⟩
  · intro hW hB seg hseg
    simp only [wrap_segs, List.mem_map] at hseg
    obtain ⟨pr, hpr, rfl⟩ := hseg
    exact wrap_go_width w_of pct (eff_width width) hW1 line.length line hW hB pr hpr
  · intro seg hseg
    simp only [wrap_segs, List.mem_map] at hseg
    obtain ⟨pr, hpr, rfl⟩ := hseg
    exact wrap_go_nonempty w_of pct (eff_width width) line.length line pr hpr
  · exact wrap_go_reconstruct w_of pct (eff_width width) line.length line (Nat.le_refl _)
  · exact wrap_go_gaps w_of pct (eff_width width) line.length line

/-- Witness for the amended C3 at Scenario 4: width 5 and the line
    "hello world" (all codepoints one cell wide, none punctuation). -/
theorem wrap_bounds_amended_witness :
    (∀ seg ∈ wrap_segs (fun _ => 1) (fun _ => false) 5
        [104, 101, 108, 108, 111, 32, 119, 111, 114, 108, 100],
      dwidth (fun _ => 1) seg ≤ eff_width 5) ∧
    (∀ seg ∈ wrap_segs (fun _ => 1) (fun _ => false) 5
        [104, 101, 108, 108, 111, 32, 119, 111, 114, 108, 100], seg ≠ []) ∧
    ((wrap_pairs (fun _ => 1) (fun _ => false) 5
        [104, 101, 108, 108, 111, 32, 119, 111, 114, 108, 100]).map
          fun pr => pr.1 ++ pr.2).flatten
      = [104, 101, 108, 108, 111, 32, 119, 111, 114, 108, 100] ∧
    (∀ pr ∈ wrap_pairs (fun _ => 1) (fun _ => false) 5
        [104, 101, 108, 108, 111, 32, 119, 111, 114, 108, 100], ∀ c ∈ pr.2, c = 32) := by
  have h := wrap_bounds_amended (fun _ => 1) (fun _ => false) 5
    [104, 101, 108, 108, 111, 32, 119, 111, 114, 108, 100]
  exact ⟨h.1 (by decide) (by decide), h.2.1, h.2.2.1, h.2.2.2⟩

/-- Witness for C5 at a concrete parser state, option byte, and capacity. -/
theorem telnet_command_semantics_witness :
    telnet_filter_and_reply ⟨0, 7⟩ [IAC, IAC] 0 65536 = (⟨0, IAC⟩, [IAC], []) ∧
    telnet_filter_and_reply ⟨0, 7⟩ [IAC, DO_, 42] 0 65536 = (⟨0, DO_⟩, [], [IAC, WONT, 42]) ∧
    telnet_filter_and_reply ⟨0, 7⟩ [IAC, WILL, 42] 0 65536 = (⟨0, WILL⟩, [], [IAC, DONT, 42]) ∧
    telnet_filter_and_reply ⟨0, 7⟩ [IAC, DONT, 42] 0 65536 = (⟨0, DONT⟩, [], []) ∧
    telnet_filter_and_reply ⟨0, 7⟩ [IAC, WONT, 42] 0 65536 = (⟨0, WONT⟩, [], []) ∧
    telnet_filter_and_reply ⟨0, 0⟩ [IAC, DO_, 42] 0 65536 = (⟨0, DO_⟩, [], [IAC, WONT, 42]) :=
  telnet_command_semantics ⟨0, 7⟩ 42 65536 rfl (by norm_num)

/-- `push_visual_w` never touches the store. -/
theorem push_visual_w_store (s : BufState) (x : List Nat) :
    (push_visual_w s x).store = s.store := by
  unfold push_visual_w
  by_cases hfull : s.visual.length < VIS_MAX
  · rw [if_pos hfull]
  · rw [if_neg hfull]

/-- Pushing a sequence of visual lines never touches the store. -/
theorem foldl_push_store (segs : List (List Nat)) :
    ∀ s : BufState, (segs.foldl push_visual_w s).store = s.store := by
  induction segs with
  | nil => intro s; rfl
  | cons x xs ih =>
    intro s
    simp only [List.foldl_cons]
    rw [ih, push_visual_w_store]

/-- One push preserves the ring/scroll invariant. -/
theorem push_visual_w_inv (rows : Int) (s : BufState) (x : List Nat) (h : BufInv rows s) :
    BufInv rows (push_visual_w s x) := by
  obtain ⟨h1, h2, h3, h4⟩ := h
  unfold push_visual_w
  by_cases hfull : s.visual.length < VIS_MAX
  · rw [if_pos hfull]
    refine ⟨h1, ?_, h3, ?_⟩
    · dsimp only
      simp only [List.length_append, List.length_cons, List.length_nil]
      omega
    · dsimp only
      simp only [List.length_append, List.length_cons, List.length_nil]
      omega
  · rw [if_neg hfull]
    have hpos : 1 ≤ s.visual.length := by
      have hv : 0 < VIS_MAX := by norm_num [VIS_MAX]
      omega
    have hlen2 : (s.visual.drop 1 ++ [x]).length = s.visual.length := by
      simp only [List.length_append, List.length_drop, List.length_cons, List.length_nil]
      omega
    by_cases hvt : 0 < s.view_top
    · rw [if_pos hvt]
      refine ⟨h1, ?_, by dsimp only; omega, ?_⟩
      · dsimp only
        rw [hlen2]
        exact h2
      · dsimp only
        rw [hlen2]
        omega
    · rw [if_neg hvt]
      refine ⟨h1, ?_, h3, ?_⟩
      · dsimp only
        rw [hlen2]
        exact h2
      · dsimp only
        rw [hlen2]
        omega

/-- Pushing a sequence of visual lines preserves the invariant. -/
theorem foldl_push_inv (rows : Int) (segs : List (List Nat)) :
    ∀ s : BufState, BufInv rows s → BufInv rows (segs.foldl push_visual_w s) := by
  induction segs with
  | nil => intro s h; exact h
  | cons x xs ih =>
    intro s h
    simp only [List.foldl_cons]
    exact ih _ (push_visual_w_inv rows s x h)

/-- One push keeps the visual ring within capacity, regardless of the
    scroll position. -/
theorem push_visual_w_vislen (s : BufState) (x : List Nat)
    (h : s.visual.length ≤ VIS_MAX) : (push_visual_w s x).visual.length ≤ VIS_MAX := by
  have hv : 0 < VIS_MAX := by norm_num [VIS_MAX]
  unfold push_visual_w
  by_cases hfull : s.visual.length < VIS_MAX
  · rw [if_pos hfull]
    dsimp only
    simp only [List.length_append, List.length_cons, List.length_nil]
    omega
  · rw [if_neg hfull]
    dsimp only
    simp only [List.length_append, List.length_drop, List.length_cons, List.length_nil]
    omega

/-- Pushing a sequence keeps the visual ring within capacity. -/
theorem foldl_push_vislen (segs : List (List Nat)) :
    ∀ s : BufState, s.visual.length ≤ VIS_MAX →
      (segs.foldl push_visual_w s).visual.length ≤ VIS_MAX := by
  induction segs with
  | nil => intro s h; exact h
  | cons x xs ih =>
    intro s h
    simp only [List.foldl_cons]
    exact ih _ (push_visual_w_vislen s x h)

/-- Re-anchoring the scroll position to the bottom restores the invariant
    for any in-capacity state. -/
theorem anchor_bottom_inv (rows : Int) (t : BufState) (h1 : t.store.length ≤ STORE_MAX)
    (h2 : t.visual.length ≤ VIS_MAX) :
    BufInv rows { t with view_top := max ((t.visual.length : Int) - eff_visible rows) 0 } := by
  refine ⟨h1, h2, ?_, ?_⟩ <;> (dsimp only; omega)

/-- Clamping any scroll position into the valid range restores the
    invariant for any in-capacity state. -/
theorem clamp_inv (rows : Int) (t : BufState) (v : Int) (h1 : t.store.length ≤ STORE_MAX)
    (h2 : t.visual.length ≤ VIS_MAX) :
    BufInv rows
      { t with
        view_top := max (min v (max ((t.visual.length : Int) - eff_visible rows) 0)) 0 } := by
  refine ⟨h1, h2, ?_, ?_⟩ <;> (dsimp only; omega)

/-- The store after `add_logical_line_w` is exactly the ring append:
    a plain append below capacity, and otherwise eviction of the oldest
    entry followed by the append. -/
theorem add_logical_line_w_store (w_of : Nat → Int) (pct : Nat → Bool) (rows cols : Int)
    (s : BufState) (line : List Nat) (follow : Bool) :
    (add_logical_line_w w_of pct rows cols s line follow).store
      = if s.store.length < STORE_MAX then s.store ++ [line]
        else s.store.drop 1 ++ [line] := by
  simp only [add_logical_line_w, wrap_and_push_wide]
  split_ifs <;>
    first
      | (dsimp only; rw [foldl_push_store])
      | rw [foldl_push_store]

/-- Claim C8: ring eviction and scroll clamping.  The store never exceeds
    STORE_MAX and the visual ring never exceeds VIS_MAX; an append into a
    full ring removes exactly the oldest entry first; and each of the
    operations — visual push, logical append (with or without follow),
    reflow (keeping the bottom or not), and every scroll operation —
    preserves the invariant that view_top lies in
    [0, max(0, vis_count − viewport_height)]. -/
theorem ring_and_scroll_invariants (w_of : Nat → Int) (pct : Nat → Bool) (rows cols : Int)
    (s : BufState) (x line : List Nat) (follow keep_bottom : Bool) (h : BufInv rows s) :
    BufInv rows (push_visual_w s x) ∧
    BufInv rows (add_logical_line_w w_of pct rows cols s line follow) ∧
    BufInv rows (reflow w_of pct rows cols s keep_bottom) ∧
    BufInv rows (page_up rows s) ∧
    BufInv rows (page_down rows s) ∧
    BufInv rows (scroll_home s) ∧
    BufInv rows (scroll_end rows s) ∧
    BufInv rows (line_up s) ∧
    BufInv rows (line_down rows s) ∧
    (s.visual.length = VIS_MAX → (push_visual_w s x).visual = s.visual.drop 1 ++ [x]) ∧
    (s.store.length = STORE_MAX →
      (add_logical_line_w w_of pct rows cols s line follow).store
        = s.store.drop 1 ++ [line]) ∧
    (push_visual_w s x).visual.length ≤ VIS_MAX ∧
    (add_logical_line_w w_of pct rows cols s line follow).store.length ≤ STORE_MAX := by
  obtain ⟨h1, h2, h3, h4⟩ := h
  have hinv : BufInv rows s := ⟨h1, h2, h3, h4⟩
  have hsm : 0 < STORE_MAX := by norm_num [STORE_MAX]
  have hvpos : (1 : Int) ≤ eff_visible rows := le_max_right _ _
  have hstore_eq := add_logical_line_w_store w_of pct rows cols s line follow
  have hadd_store_len :
      (add_logical_line_w w_of pct rows cols s line follow).store.length ≤ STORE_MAX := by
    rw [hstore_eq]
    split_ifs with hlt
    · simp only [List.length_append, List.length_cons, List.length_nil]
      omega
    · simp only [List.length_append, List.length_drop, List.length_cons, List.length_nil]
      omega
  have hadd_inv : BufInv rows (add_logical_line_w w_of pct rows cols s line follow) := by
    simp only [add_logical_line_w, wrap_and_push_wide]
    have hinv1 : BufInv rows
        (if s.store.length < STORE_MAX then { s with store := s.store ++ [line] }
         else { s with store := s.store.drop 1 ++ [line] }) := by
      by_cases hfull : s.store.length < STORE_MAX
      · rw [if_pos hfull]
        refine ⟨?_, h2, h3, h4⟩
        dsimp only
        simp only [List.length_append, List.length_cons, List.length_nil]
        omega
      · rw [if_neg hfull]
        refine ⟨?_, h2, h3, h4⟩
        dsimp only
        simp only [List.length_append, List.length_drop, List.length_cons, List.length_nil]
        omega
    have hinv2 := foldl_push_inv rows (wrap_segs w_of pct (cols - 1) line) _ hinv1
    by_cases hfollow : follow = true
    · rw [if_pos hfollow]
      exact anchor_bottom_inv rows _ hinv2.1 hinv2.2.1
    · rw [if_neg hfollow]
      exact hinv2
  have hreflow : BufInv rows (reflow w_of pct rows cols s keep_bottom) := by
    simp only [reflow, wrap_and_push_wide]
    have hvis : ∀ (ls : List (List Nat)) (st : BufState), st.visual.length ≤ VIS_MAX →
        (ls.foldl (fun st l => (wrap_segs w_of pct (cols - 1) l).foldl push_visual_w st)
          st).visual.length ≤ VIS_MAX := by
      intro ls
      induction ls with
      | nil => intro st hst; exact hst
      | cons l ltl ih =>
        intro st hst
        simp only [List.foldl_cons]
        exact ih _ (foldl_push_vislen _ _ hst)
    have hst : ∀ (ls : List (List Nat)) (st : BufState),
        (ls.foldl (fun st l => (wrap_segs w_of pct (cols - 1) l).foldl push_visual_w st)
          st).store = st.store := by
      intro ls
      induction ls with
      | nil => intro st; rfl
      | cons l ltl ih =>
        intro st
        simp only [List.foldl_cons]
        rw [ih, foldl_push_store]
    have hvis2 := hvis s.store { s with visual := [] } (by dsimp only; simp [VIS_MAX])
    have hst2 := hst s.store { s with visual := [] }
    by_cases hkb : keep_bottom = true
    · rw [if_pos hkb]
      refine anchor_bottom_inv rows _ ?_ hvis2
      rw [hst2]
      exact h1
    · rw [if_neg hkb]
      refine clamp_inv rows _ _ ?_ hvis2
      rw [hst2]
      exact h1
  refine ⟨push_visual_w_inv rows s x hinv, hadd_inv, hreflow, ?_, ?_, ?_, ?_, ?_, ?_,
    ?_, ?_, push_visual_w_vislen s x h2, hadd_store_len⟩
  · simp only [page_up]
    refine ⟨h1, h2, ?_, ?_⟩ <;> (dsimp only; omega)
  · simp only [page_down]
    refine ⟨h1, h2, ?_, ?_⟩ <;> (dsimp only; omega)
  · simp only [scroll_home]
    refine ⟨h1, h2, ?_, ?_⟩ <;> (dsimp only; omega)
  · simp only [scroll_end]
    refine ⟨h1, h2, ?_, ?_⟩ <;> (dsimp only; omega)
  · simp only [line_up]
    refine ⟨h1, h2, ?_, ?_⟩ <;> (dsimp only; split_ifs <;> omega)
  · simp only [line_down]
    refine ⟨h1, h2, ?_, ?_⟩ <;> (dsimp only; split_ifs <;> omega)
  · intro hfull
    unfold push_visual_w
    rw [if_neg (by omega)]
  · intro hfull
    rw [hstore_eq, if_neg (by omega)]

/-- Witness for C8 at a concrete state: the empty display state on a 10 by
    20 terminal satisfies the invariant after a push. -/
theorem ring_and_scroll_invariants_witness :
    BufInv 10 (push_visual_w ⟨[], [], 0⟩ [66]) :=
  (ring_and_scroll_invariants (fun _ => 1) (fun _ => false) 10 20 ⟨[], [], 0⟩ [66] [65]
    true false (by refine ⟨?_, ?_, ?_, ?_⟩ <;> simp [STORE_MAX, VIS_MAX, eff_visible])).1

/-- Claim C4 (code defect): the quiet-period unlock can never fire with a
    positive quiet period, and it is not re-checked on idle wakes.  The C
    code evaluates the rule only inside the inbound branch, immediately
    after resetting last_rx to the current instant, so the measured quiet
    time there is zero; an iteration without socket activity skips the rule
    entirely.  Concretely: with the lock held, the recent window ending in
    ": ", and no inbound bytes for ten seconds, both an idle wake and an
    active wake leave the lock asserted, although the claim requires an
    immediate release. -/
theorem quiet_unlock_never_fires :
    has_unlock_marker (cstr [99, 109, 100, 58, 32]) = true ∧
    (300 : Int) ≤ 10000 - 0 ∧
    (session_step ⟨false, false, 1200, 300⟩
        ⟨⟨0, 0⟩, [], [99, 109, 100, 58, 32], 0, true, false, 0, true,
          ⟨true, 0, [78], [80]⟩, ⟨false, 0, 0, 0, 0, 0, [], []⟩⟩
        10000 none none).1.input_locked = true ∧
    (session_step ⟨false, false, 1200, 300⟩
        ⟨⟨0, 0⟩, [], [99, 109, 100, 58, 32], 0, true, false, 0, true,
          ⟨true, 0, [78], [80]⟩, ⟨false, 0, 0, 0, 0, 0, [], []⟩⟩
        10000 (some [32]) none).1.input_locked = true := by
  refine ⟨by decide, by decide, by decide, by decide⟩

/-- `prompt_update` never writes the lock. -/
theorem prompt_update_lock (cfg : Config) (now : Int) (recent1 : List Nat)
    (s3 : SessionState) :
    (prompt_update cfg now recent1 s3).1.input_locked = s3.input_locked := by
  unfold prompt_update
  split_ifs <;> rfl

/-- `quiet_unlock` only ever clears the lock. -/
theorem quiet_unlock_lock (cfg : Config) (now : Int) (recent1 : List Nat)
    (s4 : SessionState) (h : s4.input_locked = false) :
    (quiet_unlock cfg now recent1 s4).input_locked = false := by
  unfold quiet_unlock
  split_ifs <;> first | rfl | exact h

/-- The inbound stage only ever clears the lock. -/
theorem session_rx_lock (cfg : Config) (s : SessionState) (now : Int) (bytes : List Nat)
    (h : s.input_locked = false) :
    (session_rx cfg s now bytes).1.input_locked = false := by
  unfold session_rx
  dsimp only
  by_cases hm : normalize_incoming (telnet_filter_and_reply s.tp bytes 0 65536).2.1 0 65536 = []
  · rw [if_pos hm]
    exact h
  · rw [if_neg hm]
    dsimp only
    apply quiet_unlock_lock
    rw [prompt_update_lock]
    exact h

/-- `delay_unlock` only ever clears the lock. -/
theorem delay_unlock_lock (cfg : Config) (now : Int) (s6 : SessionState)
    (h : s6.input_locked = false) :
    (delay_unlock cfg now s6).input_locked = false := by
  unfold delay_unlock
  split_ifs <;> first | rfl | exact h

/-- `auto_help_send` never writes the lock. -/
theorem auto_help_send_lock (cfg : Config) (s7 : SessionState) :
    (auto_help_send cfg s7).1.input_locked = s7.input_locked := by
  unfold auto_help_send
  split_ifs <;> rfl

/-- One loop iteration never asserts the lock: an iteration entered with
    the lock released leaves it released. -/
theorem session_step_lock_false (cfg : Config) (s : SessionState) (now : Int)
    (inbound key : Option (List Nat)) (h : s.input_locked = false) :
    (session_step cfg s now inbound key).1.input_locked = false := by
  unfold session_step
  have h6 : ∀ t : SessionState, t.input_locked = false →
      ((auto_help_send cfg (delay_unlock cfg now t)).1).input_locked = false := by
    intro t hr
    rw [auto_help_send_lock]
    exact delay_unlock_lock cfg now t hr
  cases inbound with
  | none =>
    cases key with
    | none =>
      dsimp only
      exact h6 _ h
    | some line =>
      dsimp only
      split_ifs <;> (dsimp only; exact h6 _ h)
  | some bytes =>
    cases key with
    | none =>
      dsimp only
      exact h6 _ (session_rx_lock cfg _ now bytes h)
    | some line =>
      dsimp only
      split_ifs <;> (dsimp only; exact h6 _ (session_rx_lock cfg _ now bytes h))

/-- Claim C10: the input lock is monotone.  It is asserted only by the
    session initialization (exactly when an autologin strategy is enabled);
    no loop iteration ever re-asserts it, so once input_locked is 0 it
    stays 0 over any sequence of wakes, socket reads and keystrokes. -/
theorem input_lock_monotone (cfg : Config) :
    (∀ (s : SessionState) (now : Int) (inbound key : Option (List Nat)),
      (session_step cfg s now inbound key).1.input_locked = true →
        s.input_locked = true) ∧
    (∀ (steps : List (Int × Option (List Nat) × Option (List Nat))) (s : SessionState),
      s.input_locked = false →
      (steps.foldl (fun st stp => (session_step cfg st stp.1 stp.2.1 stp.2.2).1)
        s).input_locked = false) ∧
    (∀ e1 e2 : Bool, session_init_locked e1 e2 = true ↔ (e1 = true ∨ e2 = true)) := by
  refine ⟨?_, ?_, ?_⟩
  · intro s now inbound key hstep
    by_contra hs
    have h0 : s.input_locked = false := by
      cases h1 : s.input_locked
      · rfl
      · exact absurd h1 hs
    rw [session_step_lock_false cfg s now inbound key h0] at hstep
    exact Bool.false_ne_true hstep
  · intro steps
    induction steps with
    | nil => intro s h; exact h
    | cons stp rest ih =>
      intro s h
      simp only [List.foldl_cons]
      exact ih _ (session_step_lock_false cfg s stp.1 stp.2.1 stp.2.2 h)
  · intro e1 e2
    cases e1 <;> cases e2 <;> simp [session_init_locked]

/-- Witness for C10: a released lock stays released across a concrete idle
    wake. -/
theorem input_lock_monotone_witness :
    ([((5 : Int), (none : Option (List Nat)), (none : Option (List Nat)))].foldl
        (fun st stp =>
          (session_step ⟨false, false, 1200, 300⟩ st stp.1 stp.2.1 stp.2.2).1)
        ⟨⟨0, 0⟩, [], [], 0, false, false, 0, true, ⟨false, 0, [], []⟩,
          ⟨false, 0, 0, 0, 0, 0, [], []⟩⟩).input_locked = false :=
  (input_lock_monotone ⟨false, false, 1200, 300⟩).2.1 [(5, none, none)] _ rfl

end Bpq
